import Mathlib

/-!
Shallow embedding of the bloom filter program (main.go, two variants).

Modelling conventions used throughout:
- Go byte slices are modelled as `List Nat`; a byte value is taken modulo 256
  at every point where its numeric value is consumed, matching uint8 semantics.
- Go strings are modelled by their byte sequences: the conversion byte-slice of
  a string is the identity on contents, and Go string equality is bytewise
  equality, so a `List Nat` value plays both roles.
- Go uint64 arithmetic is `Nat` arithmetic reduced modulo 2 ^ 64.
- A Go panic (slice out of range, array index out of range) is modelled by
  `Option`: `none` is the aborted computation.
-/

namespace Murmur3

/-- Reduction modulo 2 ^ 64, modelling Go uint64 arithmetic. -/
def mod64 (n : Nat) : Nat := n % 2 ^ 64

/-- Rotation of a 64 bit word left by r bits. -/
def rotl64 (x r : Nat) : Nat := mod64 (x <<< r) ||| (x >>> (64 - r))

/-- First mixing constant of the x64 128 bit murmur3 variant. -/
def c1 : Nat := 0x87c37b91114253d5

/-- Second mixing constant of the x64 128 bit murmur3 variant. -/
def c2 : Nat := 0x4cf5ad432745937f

/-- Finalization mix of murmur3. -/
def fmix64 (h0 : Nat) : Nat :=
  let h := h0 ^^^ (h0 >>> 33)
  let h := mod64 (h * 0xff51afd7ed558ccd)
  let h := h ^^^ (h >>> 33)
  let h := mod64 (h * 0xc4ceb9fe1a85ec53)
  h ^^^ (h >>> 33)

/-- Little endian assembly of a word from a list of bytes: the first byte is
the least significant. -/
def le64 (bs : List Nat) : Nat := bs.foldr (fun b acc => b % 256 + 256 * acc) 0

/-- Body mix of one 16 byte block, acting on the two accumulators. -/
def bmix (h1 h2 k1 k2 : Nat) : Nat × Nat :=
  let k1 := mod64 (k1 * c1)
  let k1 := rotl64 k1 31
  let k1 := mod64 (k1 * c2)
  let h1 := h1 ^^^ k1
  let h1 := rotl64 h1 27
  let h1 := mod64 (h1 + h2)
  let h1 := mod64 (h1 * 5 + 0x52dce729)
  let k2 := mod64 (k2 * c2)
  let k2 := rotl64 k2 33
  let k2 := mod64 (k2 * c1)
  let h2 := h2 ^^^ k2
  let h2 := rotl64 h2 31
  let h2 := mod64 (h2 + h1)
  let h2 := mod64 (h2 * 5 + 0x38495ab5)
  (h1, h2)

/-- Consumption of the input in 16 byte blocks; returns the accumulators and
the remaining tail of fewer than 16 bytes. -/
def mixBlocks : Nat → Nat → List Nat → Nat × Nat × List Nat
  | h1, h2, b0 :: b1 :: b2 :: b3 :: b4 :: b5 :: b6 :: b7 ::
            b8 :: b9 :: b10 :: b11 :: b12 :: b13 :: b14 :: b15 :: rest =>
    let k1 := le64 [b0, b1, b2, b3, b4, b5, b6, b7]
    let k2 := le64 [b8, b9, b10, b11, b12, b13, b14, b15]
    let p := bmix h1 h2 k1 k2
    mixBlocks p.1 p.2 rest
  | h1, h2, bs => (h1, h2, bs)

/-- Tail mix: the switch over the remaining 1 to 15 bytes. Bytes 8 and later
feed the second accumulator, bytes 0 to 7 feed the first; the shifted xor
chains of the source assemble exactly the little endian words of the two
halves of the tail. -/
def tailMix (h1 h2 : Nat) (t : List Nat) : Nat × Nat :=
  let h2 :=
    if 8 < t.length then
      let k2 := le64 (t.drop 8)
      let k2 := mod64 (k2 * c2)
      let k2 := rotl64 k2 33
      let k2 := mod64 (k2 * c1)
      h2 ^^^ k2
    else h2
  let h1 :=
    if 0 < t.length then
      let k1 := le64 (t.take 8)
      let k1 := mod64 (k1 * c1)
      let k1 := rotl64 k1 31
      let k1 := mod64 (k1 * c2)
      h1 ^^^ k1
    else h1
  (h1, h2)

/-- The x64 128 bit murmur3 hash with a seed, returning both 64 bit halves. -/
def Sum128WithSeed (data : List Nat) (seed : Nat) : Nat × Nat :=
  let h1 := seed
  let h2 := seed
  let r := mixBlocks h1 h2 data
  let h1 := r.1
  let h2 := r.2.1
  let t := r.2.2
  let q := tailMix h1 h2 t
  let h1 := q.1
  let h2 := q.2
  let n := mod64 data.length
  let h1 := h1 ^^^ n
  let h2 := h2 ^^^ n
  let h1 := mod64 (h1 + h2)
  let h2 := mod64 (h2 + h1)
  let h1 := fmix64 h1
  let h2 := fmix64 h2
  let h1 := mod64 (h1 + h2)
  let h2 := mod64 (h2 + h1)
  (h1, h2)

/-- The first 64 bits of the seeded x64 128 bit hash, as returned by the Go
murmur3 library function of the same name. -/
def Sum64WithSeed (data : List Nat) (seed : Nat) : Nat :=
  (Sum128WithSeed data seed).1

end Murmur3

/-- One operation on a membership filter: record adds a value, query asks
whether a value has probably been added. -/
inductive FilterOp where
  | record (data : List Nat)
  | query (data : List Nat)
deriving DecidableEq

namespace Murmur

/-- Model of SetBit on the sparse bit array: the state is the list of
positions whose bit is one, and setting a bit already one is a no-op. -/
def setBit (bits : List Nat) (pos : Nat) : List Nat :=
  if bits.contains pos then bits else pos :: bits

/-- Model of GetBit on the sparse bit array. -/
def getBit (bits : List Nat) (pos : Nat) : Bool := bits.contains pos

/-- The murmur3 variant filter: one sparse bit array. -/
structure BloomFilter where
  bits : List Nat
deriving DecidableEq

/-- NewBloomFilter: a fresh sparse bit array with every bit zero. -/
def NewBloomFilter : BloomFilter := ⟨[]⟩

/-- getPositions of the murmur3 variant: two seeded 64 bit murmur3 hashes.
The receiver is unused by the source and kept here unused as well. -/
def BloomFilter.getPositions (_f : BloomFilter) (data : List Nat) : List Nat :=
  [Murmur3.Sum64WithSeed data 1, Murmur3.Sum64WithSeed data 2]

/-- Set of the murmur3 variant: set the bit at every derived position. -/
def BloomFilter.Set (f : BloomFilter) (data : List Nat) : BloomFilter :=
  ⟨(f.getPositions data).foldl setBit f.bits⟩

/-- Test of the murmur3 variant: true exactly when every derived position has
its bit set; the source loop returns false at the first unset bit. -/
def BloomFilter.Test (f : BloomFilter) (data : List Nat) : Bool :=
  (f.getPositions data).all fun pos => getBit f.bits pos

/-- The composite structure of the murmur3 variant: an ordered list of string
values together with the owned filter. -/
structure ArrayWithBloomFilter where
  array : List (List Nat)
  filter : BloomFilter
deriving DecidableEq

/-- NewArrayWithBloomFilter: empty array, fresh filter. -/
def NewArrayWithBloomFilter : ArrayWithBloomFilter := ⟨[], NewBloomFilter⟩

/-- Set on the composite structure: record in the filter, append to the
array. -/
def ArrayWithBloomFilter.Set (a : ArrayWithBloomFilter) (value : List Nat) :
    ArrayWithBloomFilter :=
  { array := a.array ++ [value], filter := a.filter.Set value }

/-- Test on the composite structure: a negative filter answer short-circuits,
a positive one falls back to the linear scan. -/
def ArrayWithBloomFilter.Test (a : ArrayWithBloomFilter) (value : List Nat) : Bool :=
  let hasElement := a.filter.Test value
  if !hasElement then false
  else a.array.any fun el => el == value

/-- Folding a list of record calls over a filter. -/
def Sets (f : BloomFilter) (ds : List (List Nat)) : BloomFilter :=
  ds.foldl BloomFilter.Set f

/-- The filter state after a list of record and query operations: queries do
not change the state. -/
def stateAfter (f : BloomFilter) : List FilterOp → BloomFilter
  | [] => f
  | .record d :: rest => stateAfter (f.Set d) rest
  | .query _ :: rest => stateAfter f rest

/-- The list of boolean answers produced by a list of operations. -/
def runOps (f : BloomFilter) : List FilterOp → List Bool
  | [] => []
  | .record d :: rest => runOps (f.Set d) rest
  | .query d :: rest => f.Test d :: runOps f rest

/-- The collection state reached from a fresh collection by a list of
inserts. -/
def buildA (l : List (List Nat)) : ArrayWithBloomFilter :=
  l.foldl ArrayWithBloomFilter.Set NewArrayWithBloomFilter

end Murmur

namespace FixedLemmas

theorem getD_set_self (l : List Bool) (n : Nat) (h : n < l.length) :
    (l.set n true).getD n false = true := by
  rw [List.getD_eq_getElem _ _ (by simpa using h)]
  simp [List.getElem_set]

theorem getD_set_mono (l : List Bool) (n m : Nat) (h : l.getD m false = true) :
    (l.set n true).getD m false = true := by
  rcases Nat.lt_or_ge m l.length with hm | hm
  · rw [List.getD_eq_getElem _ _ hm] at h
    rw [List.getD_eq_getElem _ _ (by simpa using hm)]
    rw [List.getElem_set]
    split
    · rfl
    · exact h
  · rw [List.getD_eq_default _ _ hm] at h
    simp at h

theorem getD_replicate_false (n p : Nat) :
    (List.replicate n false).getD p false = false := by
  rcases Nat.lt_or_ge p n with hp | hp
  · rw [List.getD_eq_getElem _ _ (by simpa using hp)]
    simp
  · exact List.getD_eq_default _ _ (by simpa using hp)

end FixedLemmas

namespace Fixed

/-- The fixed variant filter: an array of 99 booleans, all false at
construction (the Go zero value of the struct). -/
def BloomFilter := { l : List Bool // l.length = 99 }

instance : DecidableEq BloomFilter := fun a b =>
  decidable_of_iff (a.val = b.val) Subtype.ext_iff.symm

/-- A fresh fixed variant filter: every bit zero. -/
def NewBloomFilter : BloomFilter := ⟨List.replicate 99 false, by simp⟩

/-- Sum of the bytes shifted right by one, the first accumulator of the
hand rolled hash. -/
def sum1 (data : List Nat) : Nat := (data.map fun b => b % 256 / 2).sum

/-- Sum of the bytes shifted right by two, the second accumulator of the
hand rolled hash. -/
def sum2 (data : List Nat) : Nat := (data.map fun b => b % 256 / 4).sum

/-- Decimal digit list of n, most significant digit first, computed with a
fuel argument to keep the recursion structural; fuel n + 1 always
suffices. This models the decimal string produced by Itoa. -/
def decDigitsAux : Nat → Nat → List Nat
  | 0, _ => []
  | fuel + 1, n => if n < 10 then [n] else decDigitsAux fuel (n / 10) ++ [n % 10]

/-- Decimal digit list of n, most significant digit first. -/
def decDigits (n : Nat) : List Nat := decDigitsAux (n + 1) n

/-- The first two decimal digits of n read back as a number, as computed by
printing n, slicing the first two characters of the string and parsing them.
Slicing a string of fewer than two characters panics, hence none when n is
below ten. -/
def firstTwoDigits (n : Nat) : Option Nat :=
  match decDigits n with
  | d1 :: d2 :: _ => some (10 * d1 + d2)
  | _ => none

/-- getPositions of the fixed variant: the two truncated digit sums. The
receiver is unused by the source and kept here unused as well. -/
def BloomFilter.getPositions (_f : BloomFilter) (data : List Nat) :
    Option (List Nat) := do
  let p1 ← firstTwoDigits (sum1 data)
  let p2 ← firstTwoDigits (sum2 data)
  return [p1, p2]

/-- Writing one bit of the 99 slot array; an index past the end panics. -/
def setBit (f : BloomFilter) (pos : Nat) : Option BloomFilter :=
  if pos < 99 then some ⟨f.val.set pos true, by simp [f.prop]⟩ else none

/-- Reading one bit of the 99 slot array; an index past the end panics. -/
def getBit (f : BloomFilter) (pos : Nat) : Option Bool :=
  if pos < 99 then some (f.val.getD pos false) else none

/-- Set of the fixed variant: set the bit at every derived position. -/
def BloomFilter.Set (f : BloomFilter) (data : List Nat) : Option BloomFilter := do
  let ps ← f.getPositions data
  ps.foldlM setBit f

/-- The test loop of the fixed variant: read each position in order and stop
with false at the first unset bit. -/
def testLoop (f : BloomFilter) : List Nat → Option Bool
  | [] => some true
  | pos :: rest => do
    let hasBit ← getBit f pos
    if !hasBit then return false
    else testLoop f rest

/-- Test of the fixed variant. -/
def BloomFilter.Test (f : BloomFilter) (data : List Nat) : Option Bool := do
  let ps ← f.getPositions data
  testLoop f ps

/-- The composite structure of the fixed variant. -/
structure ArrayWithBloomFilter where
  array : List (List Nat)
  filter : BloomFilter
deriving DecidableEq

/-- NewArrayWithBloomFilter of the fixed variant: empty array, zero value
filter. -/
def NewArrayWithBloomFilter : ArrayWithBloomFilter := ⟨[], NewBloomFilter⟩

/-- Set on the fixed variant composite structure. -/
def ArrayWithBloomFilter.Set (a : ArrayWithBloomFilter) (value : List Nat) :
    Option ArrayWithBloomFilter := do
  let f ← a.filter.Set value
  return { array := a.array ++ [value], filter := f }

/-- Test on the fixed variant composite structure. -/
def ArrayWithBloomFilter.Test (a : ArrayWithBloomFilter) (value : List Nat) :
    Option Bool := do
  let hasElement ← a.filter.Test value
  if !hasElement then return false
  else return a.array.any fun el => el == value

/-- Folding a list of record calls over a fixed variant filter; a panic
anywhere aborts the whole run. -/
def Sets (f : BloomFilter) (ds : List (List Nat)) : Option BloomFilter :=
  ds.foldlM BloomFilter.Set f

/-- The fixed variant filter state after a list of record and query
operations: queries read the array and can themselves panic, but do not
change the state when they return. -/
def stateAfter (f : BloomFilter) : List FilterOp → Option BloomFilter
  | [] => some f
  | .record d :: rest => do
    let f1 ← f.Set d
    stateAfter f1 rest
  | .query d :: rest => do
    let _ ← f.Test d
    stateAfter f rest

/-- The list of boolean answers produced by a list of operations on a fixed
variant filter. -/
def runOps (f : BloomFilter) : List FilterOp → Option (List Bool)
  | [] => some []
  | .record d :: rest => do
    let f1 ← f.Set d
    runOps f1 rest
  | .query d :: rest => do
    let b ← f.Test d
    let bs ← runOps f rest
    return b :: bs

/-- The fixed variant collection state reached from a fresh collection by a
list of inserts. -/
def buildA (l : List (List Nat)) : Option ArrayWithBloomFilter :=
  l.foldlM ArrayWithBloomFilter.Set NewArrayWithBloomFilter

end Fixed

namespace Murmur

theorem getBit_eq_true {bits : List Nat} {p : Nat} :
    getBit bits p = true ↔ p ∈ bits := by
  simp [getBit, List.elem_iff]

theorem mem_setBit_self (bits : List Nat) (p : Nat) : p ∈ setBit bits p := by
  unfold setBit
  split
  · next h => exact List.elem_iff.mp h
  · exact List.mem_cons_self p bits

theorem mem_setBit_mono {bits : List Nat} {q : Nat} (p : Nat) (h : q ∈ bits) :
    q ∈ setBit bits p := by
  unfold setBit
  split
  · exact h
  · exact List.mem_cons_of_mem p h

theorem setBit_of_mem {bits : List Nat} {p : Nat} (h : p ∈ bits) :
    setBit bits p = bits := by
  unfold setBit
  rw [if_pos (List.elem_iff.mpr h)]

theorem Set_bits (f : BloomFilter) (d : List Nat) :
    (f.Set d).bits =
      setBit (setBit f.bits (Murmur3.Sum64WithSeed d 1)) (Murmur3.Sum64WithSeed d 2) := rfl

theorem Test_eq_true_iff {f : BloomFilter} {d : List Nat} :
    f.Test d = true ↔
      Murmur3.Sum64WithSeed d 1 ∈ f.bits ∧ Murmur3.Sum64WithSeed d 2 ∈ f.bits := by
  simp [BloomFilter.Test, BloomFilter.getPositions, getBit_eq_true]

theorem mem_Set_mono {f : BloomFilter} {q : Nat} (d : List Nat) (h : q ∈ f.bits) :
    q ∈ (f.Set d).bits := by
  rw [Set_bits]
  exact mem_setBit_mono _ (mem_setBit_mono _ h)

theorem mem_Set_pos1 (f : BloomFilter) (d : List Nat) :
    Murmur3.Sum64WithSeed d 1 ∈ (f.Set d).bits := by
  rw [Set_bits]
  exact mem_setBit_mono _ (mem_setBit_self _ _)

theorem mem_Set_pos2 (f : BloomFilter) (d : List Nat) :
    Murmur3.Sum64WithSeed d 2 ∈ (f.Set d).bits := by
  rw [Set_bits]
  exact mem_setBit_self _ _

theorem mem_Sets_mono {q : Nat} (ds : List (List Nat)) :
    ∀ {f : BloomFilter}, q ∈ f.bits → q ∈ (Sets f ds).bits := by
  induction ds with
  | nil => intro f h; exact h
  | cons d t ih => intro f h; exact ih (mem_Set_mono d h)

theorem Test_Set_self (f : BloomFilter) (d : List Nat) : (f.Set d).Test d = true :=
  Test_eq_true_iff.mpr ⟨mem_Set_pos1 f d, mem_Set_pos2 f d⟩

theorem Test_Sets_mono {f : BloomFilter} {d : List Nat} (ds : List (List Nat))
    (h : f.Test d = true) : (Sets f ds).Test d = true := by
  rcases Test_eq_true_iff.mp h with ⟨h1, h2⟩
  exact Test_eq_true_iff.mpr ⟨mem_Sets_mono ds h1, mem_Sets_mono ds h2⟩

theorem mem_stateAfter_mono {q : Nat} (ops : List FilterOp) :
    ∀ {f : BloomFilter}, q ∈ f.bits → q ∈ (stateAfter f ops).bits := by
  induction ops with
  | nil => intro f h; exact h
  | cons op t ih =>
    intro f h
    cases op with
    | record d => exact ih (mem_Set_mono d h)
    | query d => exact ih h

theorem foldl_array (l : List (List Nat)) :
    ∀ (a : ArrayWithBloomFilter),
      (l.foldl ArrayWithBloomFilter.Set a).array = a.array ++ l := by
  induction l with
  | nil => intro a; simp
  | cons d t ih =>
    intro a
    simp [List.foldl_cons, ih, ArrayWithBloomFilter.Set]

theorem foldl_filter_mem {q : Nat} (l : List (List Nat)) :
    ∀ {a : ArrayWithBloomFilter}, q ∈ a.filter.bits →
      q ∈ (l.foldl ArrayWithBloomFilter.Set a).filter.bits := by
  induction l with
  | nil => intro a h; exact h
  | cons d t ih =>
    intro a h
    exact ih (mem_Set_mono d h)

theorem foldl_filter_test {s : List Nat} (l : List (List Nat)) (hs : s ∈ l) :
    ∀ (a : ArrayWithBloomFilter),
      (l.foldl ArrayWithBloomFilter.Set a).filter.Test s = true := by
  induction l with
  | nil => cases hs
  | cons d t ih =>
    intro a
    rcases List.mem_cons.mp hs with h | h
    · subst h
      rcases Test_eq_true_iff.mp (Test_Set_self a.filter s) with ⟨h1, h2⟩
      exact Test_eq_true_iff.mpr ⟨foldl_filter_mem t h1, foldl_filter_mem t h2⟩
    · exact ih h (a.Set d)

theorem Set_Set_self (f : BloomFilter) (d : List Nat) : (f.Set d).Set d = f.Set d := by
  have hb : ((f.Set d).Set d).bits = (f.Set d).bits := by
    rw [Set_bits (f.Set d) d]
    rw [setBit_of_mem (mem_Set_pos1 f d)]
    rw [setBit_of_mem (mem_Set_pos2 f d)]
  exact congrArg BloomFilter.mk hb

theorem Test_eq_and (a : ArrayWithBloomFilter) (value : List Nat) :
    a.Test value = (a.filter.Test value && a.array.any fun el => el == value) := by
  unfold ArrayWithBloomFilter.Test
  cases h : a.filter.Test value <;> simp [h]

theorem buildA_array (l : List (List Nat)) : (buildA l).array = l := by
  simpa [NewArrayWithBloomFilter] using foldl_array l NewArrayWithBloomFilter

theorem buildA_Test_iff (l : List (List Nat)) (s : List Nat) :
    (buildA l).Test s = true ↔ s ∈ l := by
  rw [Test_eq_and, Bool.and_eq_true, buildA_array]
  constructor
  · intro h
    rcases List.any_eq_true.mp h.2 with ⟨el, hel, heq⟩
    rwa [beq_iff_eq.mp heq] at hel
  · intro h
    exact ⟨foldl_filter_test l h _, List.any_eq_true.mpr ⟨s, h, beq_iff_eq.mpr rfl⟩⟩

end Murmur

namespace Fixed

theorem setBit_some_elim {f g : BloomFilter} {p : Nat} (h : setBit f p = some g) :
    p < 99 ∧ g.val = f.val.set p true := by
  unfold setBit at h
  split at h
  · next hp =>
    cases h
    exact ⟨hp, rfl⟩
  · cases h

theorem setBit_some_intro (f : BloomFilter) {p : Nat} (hp : p < 99) :
    setBit f p = some ⟨f.val.set p true, by simp [f.prop]⟩ := by
  unfold setBit
  rw [if_pos hp]

theorem getBit_some_elim {f : BloomFilter} {p : Nat} {b : Bool}
    (h : getBit f p = some b) : p < 99 ∧ b = f.val.getD p false := by
  unfold getBit at h
  split at h
  · next hp =>
    cases h
    exact ⟨hp, rfl⟩
  · cases h

theorem getBit_some_intro (f : BloomFilter) {p : Nat} (hp : p < 99) :
    getBit f p = some (f.val.getD p false) := by
  unfold getBit
  rw [if_pos hp]

theorem Set_some_elim {f g : BloomFilter} {d : List Nat} (h : f.Set d = some g) :
    ∃ p1 p2, firstTwoDigits (sum1 d) = some p1 ∧ firstTwoDigits (sum2 d) = some p2 ∧
      p1 < 99 ∧ p2 < 99 ∧ g.val = (f.val.set p1 true).set p2 true := by
  unfold BloomFilter.Set BloomFilter.getPositions at h
  cases h1 : firstTwoDigits (sum1 d) with
  | none => rw [h1] at h; simp at h
  | some p1 =>
    cases h2 : firstTwoDigits (sum2 d) with
    | none => rw [h1, h2] at h; simp at h
    | some p2 =>
      rw [h1, h2] at h
      simp only [Option.pure_def, Option.bind_eq_bind, Option.some_bind,
        List.foldlM_cons, List.foldlM_nil] at h
      obtain ⟨f1, hs1, h⟩ := Option.bind_eq_some.mp h
      obtain ⟨f2, hs2, h⟩ := Option.bind_eq_some.mp h
      obtain ⟨hb1, hv1⟩ := setBit_some_elim hs1
      obtain ⟨hb2, hv2⟩ := setBit_some_elim hs2
      obtain rfl := Option.some.inj h
      refine ⟨p1, p2, rfl, rfl, hb1, hb2, ?_⟩
      rw [hv2, hv1]

theorem Set_some_intro {f : BloomFilter} {d : List Nat} {p1 p2 : Nat}
    (h1 : firstTwoDigits (sum1 d) = some p1) (h2 : firstTwoDigits (sum2 d) = some p2)
    (hb1 : p1 < 99) (hb2 : p2 < 99) :
    f.Set d = some ⟨(f.val.set p1 true).set p2 true, by simp [f.prop]⟩ := by
  unfold BloomFilter.Set BloomFilter.getPositions
  rw [h1, h2]
  simp only [Option.pure_def, Option.bind_eq_bind, Option.some_bind,
    List.foldlM_cons, List.foldlM_nil]
  rw [setBit_some_intro f hb1]
  simp only [Option.some_bind]
  rw [setBit_some_intro _ hb2]
  simp only [Option.some_bind]

theorem Test_some_true_intro {f : BloomFilter} {d : List Nat} {p1 p2 : Nat}
    (h1 : firstTwoDigits (sum1 d) = some p1) (h2 : firstTwoDigits (sum2 d) = some p2)
    (hb1 : p1 < 99) (hb2 : p2 < 99)
    (hv1 : f.val.getD p1 false = true) (hv2 : f.val.getD p2 false = true) :
    f.Test d = some true := by
  unfold BloomFilter.Test BloomFilter.getPositions
  rw [h1, h2]
  simp only [Option.pure_def, Option.bind_eq_bind, Option.some_bind]
  unfold testLoop
  rw [getBit_some_intro f hb1, hv1]
  simp only [Option.pure_def, Option.bind_eq_bind, Option.some_bind, Bool.not_true,
    Bool.false_eq_true, if_false]
  unfold testLoop
  rw [getBit_some_intro f hb2, hv2]
  simp [testLoop]

theorem Test_some_true_elim {f : BloomFilter} {d : List Nat} (h : f.Test d = some true) :
    ∃ p1 p2, firstTwoDigits (sum1 d) = some p1 ∧ firstTwoDigits (sum2 d) = some p2 ∧
      p1 < 99 ∧ p2 < 99 ∧ f.val.getD p1 false = true ∧ f.val.getD p2 false = true := by
  unfold BloomFilter.Test BloomFilter.getPositions at h
  cases h1 : firstTwoDigits (sum1 d) with
  | none => rw [h1] at h; simp at h
  | some p1 =>
    cases h2 : firstTwoDigits (sum2 d) with
    | none => rw [h1, h2] at h; simp at h
    | some p2 =>
      rw [h1, h2] at h
      simp only [Option.pure_def, Option.bind_eq_bind, Option.some_bind] at h
      unfold testLoop at h
      obtain ⟨b1, hg1, h⟩ := Option.bind_eq_some.mp h
      obtain ⟨hb1, hv1⟩ := getBit_some_elim hg1
      cases b1 with
      | false => simp at h
      | true =>
        simp only [Bool.not_true, Bool.false_eq_true, if_false] at h
        unfold testLoop at h
        obtain ⟨b2, hg2, h⟩ := Option.bind_eq_some.mp h
        obtain ⟨hb2, hv2⟩ := getBit_some_elim hg2
        cases b2 with
        | false => simp at h
        | true => exact ⟨p1, p2, rfl, rfl, hb1, hb2, hv1.symm, hv2.symm⟩

end Fixed

namespace Fixed

theorem Set_Test_self {f g : BloomFilter} {d : List Nat} (h : f.Set d = some g) :
    g.Test d = some true := by
  obtain ⟨p1, p2, h1, h2, hb1, hb2, hval⟩ := Set_some_elim h
  apply Test_some_true_intro h1 h2 hb1 hb2
  · rw [hval]
    exact FixedLemmas.getD_set_mono _ _ _
      (FixedLemmas.getD_set_self _ _ (by rw [f.prop]; exact hb1))
  · rw [hval]
    exact FixedLemmas.getD_set_self _ _ (by simpa [f.prop] using hb2)

theorem getD_Set_mono {f g : BloomFilter} {d : List Nat} {q : Nat}
    (h : f.Set d = some g) (hq : f.val.getD q false = true) :
    g.val.getD q false = true := by
  obtain ⟨p1, p2, _, _, _, _, hval⟩ := Set_some_elim h
  rw [hval]
  exact FixedLemmas.getD_set_mono _ _ _ (FixedLemmas.getD_set_mono _ _ _ hq)

theorem Test_Set_mono {f g : BloomFilter} {d s : List Nat} (h : f.Set d = some g)
    (ht : f.Test s = some true) : g.Test s = some true := by
  obtain ⟨q1, q2, h1, h2, hb1, hb2, hv1, hv2⟩ := Test_some_true_elim ht
  exact Test_some_true_intro h1 h2 hb1 hb2 (getD_Set_mono h hv1) (getD_Set_mono h hv2)

theorem Sets_getD_mono (ds : List (List Nat)) :
    ∀ {f g : BloomFilter}, Sets f ds = some g → ∀ {q : Nat},
      f.val.getD q false = true → g.val.getD q false = true := by
  induction ds with
  | nil =>
    intro f g h q hq
    unfold Sets at h
    rw [List.foldlM_nil] at h
    obtain rfl := Option.some.inj h
    exact hq
  | cons d t ih =>
    intro f g h q hq
    unfold Sets at h
    rw [List.foldlM_cons] at h
    obtain ⟨f1, hf1, hrest⟩ := Option.bind_eq_some.mp h
    exact ih hrest (getD_Set_mono hf1 hq)

theorem Test_through_Sets (ds : List (List Nat)) :
    ∀ {f g : BloomFilter}, Sets f ds = some g → ∀ {s : List Nat},
      f.Test s = some true → g.Test s = some true := by
  induction ds with
  | nil =>
    intro f g h s hs
    unfold Sets at h
    rw [List.foldlM_nil] at h
    obtain rfl := Option.some.inj h
    exact hs
  | cons d t ih =>
    intro f g h s hs
    unfold Sets at h
    rw [List.foldlM_cons] at h
    obtain ⟨f1, hf1, hrest⟩ := Option.bind_eq_some.mp h
    exact ih hrest (Test_Set_mono hf1 hs)

theorem stateAfter_getD_mono (ops : List FilterOp) :
    ∀ {f g : BloomFilter}, stateAfter f ops = some g → ∀ {q : Nat},
      f.val.getD q false = true → g.val.getD q false = true := by
  induction ops with
  | nil =>
    intro f g h q hq
    obtain rfl := Option.some.inj h
    exact hq
  | cons op t ih =>
    intro f g h q hq
    cases op with
    | record d =>
      unfold stateAfter at h
      obtain ⟨f1, hf1, hrest⟩ := Option.bind_eq_some.mp h
      exact ih hrest (getD_Set_mono hf1 hq)
    | query d =>
      unfold stateAfter at h
      obtain ⟨b, hb, hrest⟩ := Option.bind_eq_some.mp h
      exact ih hrest hq

theorem getBit_stateAfter_mono {f g : BloomFilter} {p : Nat} (ops : List FilterOp)
    (h : stateAfter f ops = some g) (hp : getBit f p = some true) :
    getBit g p = some true := by
  obtain ⟨hlt, hval⟩ := getBit_some_elim hp
  rw [getBit_some_intro g hlt, ← stateAfter_getD_mono ops h hval.symm]

theorem Set_idem {f g : BloomFilter} {d : List Nat} (h : f.Set d = some g) :
    g.Set d = some g := by
  obtain ⟨p1, p2, h1, h2, hb1, hb2, hval⟩ := Set_some_elim h
  rw [Set_some_intro h1 h2 hb1 hb2]
  refine congrArg some (Subtype.ext ?_)
  show (g.val.set p1 true).set p2 true = g.val
  rw [hval]
  by_cases hpp : p1 = p2
  · subst hpp
    simp [List.set_set]
  · rw [List.set_comm true true (f.val.set p1 true) (Ne.symm hpp)]
    rw [List.set_set, List.set_set]

theorem SetA_some_elim {a0 a1 : ArrayWithBloomFilter} {d : List Nat}
    (h : a0.Set d = some a1) :
    ∃ f1, a0.filter.Set d = some f1 ∧ a1 = ⟨a0.array ++ [d], f1⟩ := by
  unfold ArrayWithBloomFilter.Set at h
  obtain ⟨f1, hf1, h⟩ := Option.bind_eq_some.mp h
  exact ⟨f1, hf1, (Option.some.inj h).symm⟩

theorem foldlM_SetA (l : List (List Nat)) :
    ∀ {a0 a : ArrayWithBloomFilter}, List.foldlM ArrayWithBloomFilter.Set a0 l = some a →
      a.array = a0.array ++ l ∧
      ∀ s : List Nat, (s ∈ l ∨ a0.filter.Test s = some true) →
        a.filter.Test s = some true := by
  induction l with
  | nil =>
    intro a0 a h
    rw [List.foldlM_nil] at h
    obtain rfl := Option.some.inj h
    refine ⟨by simp, ?_⟩
    intro s hs
    rcases hs with hs | hs
    · cases hs
    · exact hs
  | cons d t ih =>
    intro a0 a h
    rw [List.foldlM_cons] at h
    obtain ⟨a1, ha1, hrest⟩ := Option.bind_eq_some.mp h
    obtain ⟨f1, hf1, rfl⟩ := SetA_some_elim ha1
    obtain ⟨harr, hinv⟩ := ih hrest
    refine ⟨by rw [harr]; simp, ?_⟩
    intro s hs
    rcases hs with hs | hs
    · rcases List.mem_cons.mp hs with rfl | hmem
      · exact hinv s (Or.inr (Set_Test_self hf1))
      · exact hinv s (Or.inl hmem)
    · exact hinv s (Or.inr (Test_Set_mono hf1 hs))

theorem buildA_some_elim {l : List (List Nat)} {a : ArrayWithBloomFilter}
    (h : buildA l = some a) :
    a.array = l ∧ ∀ s ∈ l, a.filter.Test s = some true := by
  obtain ⟨harr, hinv⟩ := foldlM_SetA l h
  refine ⟨by simpa [NewArrayWithBloomFilter] using harr, ?_⟩
  intro s hs
  exact hinv s (Or.inl hs)

theorem buildA_TestA_iff {l : List (List Nat)} {a : ArrayWithBloomFilter}
    (h : buildA l = some a) (s : List Nat) :
    a.Test s = some true ↔ s ∈ l := by
  obtain ⟨harr, hinv⟩ := buildA_some_elim h
  constructor
  · intro ht
    unfold ArrayWithBloomFilter.Test at ht
    obtain ⟨b, hb, hif⟩ := Option.bind_eq_some.mp ht
    cases b with
    | false => simp at hif
    | true =>
      simp only [Bool.not_true, Bool.false_eq_true, if_false, Option.pure_def,
        Option.some.injEq] at hif
      rcases List.any_eq_true.mp hif with ⟨el, hel, heq⟩
      rw [← harr]
      rwa [beq_iff_eq.mp heq] at hel
  · intro hs
    have hf : a.filter.Test s = some true := hinv s hs
    unfold ArrayWithBloomFilter.Test
    rw [hf]
    simp only [Option.pure_def, Option.bind_eq_bind, Option.some_bind, Bool.not_true,
      Bool.false_eq_true, if_false, Option.some.injEq]
    exact List.any_eq_true.mpr ⟨s, harr ▸ hs, beq_iff_eq.mpr rfl⟩

end Fixed

/-- Byte sequence of the string test, the value used by the demonstration
entry points. -/
def testBytes : List Nat := [116, 101, 115, 116]

/-- Byte sequence of the string ab. -/
def abBytes : List Nat := [97, 98]

/-- Byte sequence of the string ba, a permutation of ab with the same byte
sums, so the fixed variant derives the same two positions for both. -/
def baBytes : List Nat := [98, 97]

/-- Byte sequence of the string cd; its first shifted byte sum is 99, so the
fixed variant derives position 99, one past the end of the 99 slot array. -/
def cdBytes : List Nat := [99, 100]

/-- The fixed variant filter state after recording testBytes: positions 22
and 11 are set. -/
def fixedAfterTest : Fixed.BloomFilter :=
  ⟨((List.replicate 99 false).set 22 true).set 11 true, by simp⟩

/-- The fixed variant filter state after recording testBytes and then
abBytes: positions 22, 11, 97 and 48 are set. -/
def fixedAfterTestAb : Fixed.BloomFilter :=
  ⟨((((List.replicate 99 false).set 22 true).set 11 true).set 97 true).set 48 true,
    by simp⟩

/-- The fixed variant collection holding exactly testBytes. -/
def fixedColl : Fixed.ArrayWithBloomFilter := ⟨[testBytes], fixedAfterTest⟩

/-- A record call followed by a query, used to exercise state evolution. -/
def demoOps : List FilterOp := [FilterOp.record abBytes, FilterOp.query testBytes]

/-- Record ab, then query ba: the operation sequence on which the two filter
variants disagree. -/
def abOps : List FilterOp := [FilterOp.record abBytes, FilterOp.query baBytes]

/-- C1: no false negatives at the filter level. For every filter state and
every byte sequence d, after Set d, Test d returns true, and it still
returns true after any further list of Set calls with arbitrary inputs: in
the murmur3 variant unconditionally, in the fixed array variant whenever
those calls complete without panicking. -/
theorem C1_no_false_negatives :
    (∀ (f : Murmur.BloomFilter) (d : List Nat) (ds : List (List Nat)),
      (Murmur.Sets (f.Set d) ds).Test d = true) ∧
    (∀ (f f1 f2 : Fixed.BloomFilter) (d : List Nat) (ds : List (List Nat)),
      f.Set d = some f1 → Fixed.Sets f1 ds = some f2 → f2.Test d = some true) := by
  constructor
  · intro f d ds
    exact Murmur.Test_Sets_mono ds (Murmur.Test_Set_self f d)
  · intro f f1 f2 d ds h1 h2
    exact Fixed.Test_through_Sets ds h2 (Fixed.Set_Test_self h1)

/-- Witness for C1: record testBytes on a fresh fixed array filter, record
abBytes afterwards, and query testBytes. -/
theorem C1_no_false_negatives_witness :
    Fixed.NewBloomFilter.Set testBytes = some fixedAfterTest ∧
    Fixed.Sets fixedAfterTest [abBytes] = some fixedAfterTestAb ∧
    fixedAfterTestAb.Test testBytes = some true :=
  ⟨by decide, by decide,
    C1_no_false_negatives.2 Fixed.NewBloomFilter fixedAfterTest fixedAfterTestAb
      testBytes [abBytes] (by decide) (by decide)⟩

/-- C2: evaluation of the fixed array variant at its failing inputs. On the
empty byte sequence both digit sums are zero, the decimal string has one
character and slicing two characters panics, so getPositions, Set and Test
all abort. On cdBytes the first derived position is 99, one past the last
index of the 99 slot array, so Set aborts when writing the bit. This refutes
the claim that every public operation is total and that the panic branch is
unreachable; the murmur3 variant functions are total by construction. -/
theorem C2_panic_reachable :
    Fixed.NewBloomFilter.getPositions [] = none ∧
    Fixed.NewBloomFilter.Set [] = none ∧
    Fixed.NewBloomFilter.Test [] = none ∧
    Fixed.NewBloomFilter.getPositions cdBytes = some [99, 49] ∧
    Fixed.NewBloomFilter.Set cdBytes = none := by
  decide

/-- C3: exactness of the collection. For every list of prior inserts and
every value s, the collection Test answers true exactly when s was inserted:
in the murmur3 variant as a plain boolean equality, in the fixed array
variant whenever the inserts completed without panicking. -/
theorem C3_exactness :
    (∀ (l : List (List Nat)) (s : List Nat),
      (Murmur.buildA l).Test s = true ↔ s ∈ l) ∧
    (∀ (l : List (List Nat)) (a : Fixed.ArrayWithBloomFilter) (s : List Nat),
      Fixed.buildA l = some a → (a.Test s = some true ↔ s ∈ l)) :=
  ⟨Murmur.buildA_Test_iff, fun _ _ s h => Fixed.buildA_TestA_iff h s⟩

/-- Witness for C3: inserting testBytes into a fresh fixed array collection
succeeds and the collection answers true for it. -/
theorem C3_exactness_witness :
    Fixed.buildA [testBytes] = some fixedColl ∧
    fixedColl.Test testBytes = some true :=
  ⟨by decide,
    (C3_exactness.2 [testBytes] fixedColl testBytes (by decide)).mpr (by decide)⟩

/-- C4: superset invariant. Every value ever inserted into a collection is
answered true by the owned filter at every later reachable state: in the
murmur3 variant unconditionally, in the fixed array variant whenever the
inserts completed without panicking. -/
theorem C4_superset :
    (∀ (l : List (List Nat)) (s : List Nat), s ∈ l →
      (Murmur.buildA l).filter.Test s = true) ∧
    (∀ (l : List (List Nat)) (a : Fixed.ArrayWithBloomFilter) (s : List Nat),
      Fixed.buildA l = some a → s ∈ l → a.filter.Test s = some true) := by
  constructor
  · intro l s h
    exact Murmur.foldl_filter_test l h Murmur.NewArrayWithBloomFilter
  · intro l a s h hs
    exact (Fixed.buildA_some_elim h).2 s hs

/-- Witness for C4: after inserting testBytes, both variants answer true on
the owned filter. -/
theorem C4_superset_witness :
    (Murmur.buildA [testBytes]).filter.Test testBytes = true ∧
    Fixed.buildA [testBytes] = some fixedColl ∧
    fixedColl.filter.Test testBytes = some true :=
  ⟨C4_superset.1 [testBytes] testBytes (by decide), by decide,
    C4_superset.2 [testBytes] fixedColl testBytes (by decide) (by decide)⟩

/-- C5: monotonicity of the bit store. A position whose bit is one stays one
across any further list of record and query operations: in the murmur3
variant unconditionally, in the fixed array variant whenever the operations
complete without panicking. -/
theorem C5_monotonic :
    (∀ (f : Murmur.BloomFilter) (ops : List FilterOp) (p : Nat),
      Murmur.getBit f.bits p = true →
        Murmur.getBit (Murmur.stateAfter f ops).bits p = true) ∧
    (∀ (f g : Fixed.BloomFilter) (ops : List FilterOp) (p : Nat),
      Fixed.stateAfter f ops = some g → Fixed.getBit f p = some true →
        Fixed.getBit g p = some true) := by
  constructor
  · intro f ops p h
    exact Murmur.getBit_eq_true.mpr
      (Murmur.mem_stateAfter_mono ops (Murmur.getBit_eq_true.mp h))
  · intro f g ops p h hp
    exact Fixed.getBit_stateAfter_mono ops h hp

/-- Witness for C5: a filter with bit 5 set keeps it set across a record and
a query, and the fixed array filter keeps bit 22 set across the same
operations. -/
theorem C5_monotonic_witness :
    Murmur.getBit (Murmur.stateAfter ⟨[5]⟩ demoOps).bits 5 = true ∧
    Fixed.stateAfter fixedAfterTest demoOps = some fixedAfterTestAb ∧
    Fixed.getBit fixedAfterTestAb 22 = some true :=
  ⟨C5_monotonic.1 ⟨[5]⟩ demoOps 5 (by decide), by decide,
    C5_monotonic.2 fixedAfterTest fixedAfterTestAb demoOps 22 (by decide) (by decide)⟩

/-- C6: determinism of position derivation. In both variants getPositions
reads nothing from the receiver, so any two filters in any states derive the
identical position list for the same input, across any number of calls. -/
theorem C6_deterministic :
    (∀ (f g : Murmur.BloomFilter) (d : List Nat),
      f.getPositions d = g.getPositions d) ∧
    (∀ (f g : Fixed.BloomFilter) (d : List Nat),
      f.getPositions d = g.getPositions d) :=
  ⟨fun _ _ _ => rfl, fun _ _ _ => rfl⟩

/-- C7: empty filter negativity. The fresh murmur3 variant filter answers
false for every input. The fresh fixed array filter never answers true, but
on the empty byte sequence it panics instead of answering false, refuting
the claim that Test returns false for every input byte sequence. -/
theorem C7_fresh_filter :
    (∀ d : List Nat, Murmur.NewBloomFilter.Test d = false) ∧
    Fixed.NewBloomFilter.Test [] = none ∧
    (∀ d : List Nat, Fixed.NewBloomFilter.Test d = none ∨
      Fixed.NewBloomFilter.Test d = some false) := by
  refine ⟨?_, by decide, ?_⟩
  · intro d
    simp [Murmur.BloomFilter.Test, Murmur.BloomFilter.getPositions, Murmur.getBit,
      Murmur.NewBloomFilter]
  · intro d
    cases ht : Fixed.NewBloomFilter.Test d with
    | none => exact Or.inl rfl
    | some b =>
      cases b with
      | false => exact Or.inr rfl
      | true =>
        obtain ⟨p1, p2, _, _, _, _, hv1, _⟩ := Fixed.Test_some_true_elim ht
        rw [show Fixed.NewBloomFilter.val = List.replicate 99 false from rfl] at hv1
        rw [FixedLemmas.getD_replicate_false] at hv1
        simp at hv1

/-- C8 counterexample: on the operation sequence record ab, query ba, the
murmur3 variant answers false while the fixed array variant answers true,
because ba is a permutation of ab and the digit sum hash of the fixed
variant cannot distinguish permutations, so the two variants are not
functionally equivalent. -/
theorem C8_counterexample :
    Murmur.runOps Murmur.NewBloomFilter abOps = [false] ∧
    Fixed.runOps Fixed.NewBloomFilter abOps = some [true] := by
  constructor
  · decide
  · decide

/-- C8 amended: the two variants are not extensionally equivalent; they are
two instances of the same design in the weaker sense that each satisfies
the core filter guarantee, a record followed by a query of the same value
answers true. -/
theorem C8_amended :
    (∀ (f : Murmur.BloomFilter) (d : List Nat), (f.Set d).Test d = true) ∧
    (∀ (f g : Fixed.BloomFilter) (d : List Nat), f.Set d = some g →
      g.Test d = some true) :=
  ⟨Murmur.Test_Set_self, fun _ _ _ h => Fixed.Set_Test_self h⟩

/-- Witness for the amended C8: recording testBytes on the fresh fixed array
filter succeeds and the filter then answers true for it. -/
theorem C8_amended_witness :
    Fixed.NewBloomFilter.Set testBytes = some fixedAfterTest ∧
    fixedAfterTest.Test testBytes = some true :=
  ⟨by decide,
    C8_amended.2 Fixed.NewBloomFilter fixedAfterTest testBytes (by decide)⟩

/-- C9: duplicate inserts. Inserting the same value twice into any murmur3
variant collection state appends exactly two entries, with no
deduplication, and the collection still answers true for the value;
every step is total. -/
theorem C9_duplicate_insert (a : Murmur.ArrayWithBloomFilter) (s : List Nat) :
    ((a.Set s).Set s).array = a.array ++ [s, s] ∧
    ((a.Set s).Set s).array.length = a.array.length + 2 ∧
    ((a.Set s).Set s).Test s = true := by
  refine ⟨?_, ?_, ?_⟩
  · show (a.array ++ [s]) ++ [s] = a.array ++ [s, s]
    simp
  · show ((a.array ++ [s]) ++ [s]).length = a.array.length + 2
    simp
  · rw [Murmur.Test_eq_and]
    have hf : ((a.Set s).Set s).filter.Test s = true :=
      Murmur.Test_Set_self (a.filter.Set s) s
    rw [hf]
    simp
    show s ∈ (a.array ++ [s]) ++ [s]
    simp

/-- C10: idempotence of record. Calling Set twice with the same input leaves
the bit store exactly as one call does: in the murmur3 variant as an
equality of states, in the fixed array variant whenever the first call
completes without panicking. -/
theorem C10_record_idempotent :
    (∀ (f : Murmur.BloomFilter) (d : List Nat), (f.Set d).Set d = f.Set d) ∧
    (∀ (f g : Fixed.BloomFilter) (d : List Nat), f.Set d = some g →
      g.Set d = some g) :=
  ⟨Murmur.Set_Set_self, fun _ _ _ h => Fixed.Set_idem h⟩

/-- Witness for C10: recording testBytes twice on the fresh fixed array
filter yields the same state as recording it once. -/
theorem C10_record_idempotent_witness :
    Fixed.NewBloomFilter.Set testBytes = some fixedAfterTest ∧
    fixedAfterTest.Set testBytes = some fixedAfterTest :=
  ⟨by decide,
    C10_record_idempotent.2 Fixed.NewBloomFilter fixedAfterTest testBytes (by decide)⟩
